import Mathlib

/-!
Verification of the IGo route-planning system (src/igo.py, src/bot.py).

The development shallowly embeds the core of `igo.py`:

* the congestion reconciler `get_congestion`;
* the graph-fusion engine `build_igraph`, split into the segment-matching
  stamping pass (`stampRun` / `phase1`) and the fallback-and-weighting pass
  (`phase2`);
* the staleness helper `update_graph` and the relevant state handling of
  `bot.py`;
* the route planner `get_shortest_path_with_ispeeds`.

Python strings holding congestion levels ("0".."6") are modelled as `ℕ`
(lexicographic comparison of single-digit strings coincides with numeric
comparison); float arithmetic on lengths, speeds, and travel times is
modelled with `ℚ`; Python exceptions are modelled with `Except Unit`.
The external osmnx primitives `nearest_nodes` and (length-weighted)
`shortest_path` used by the fusion engine are taken as opaque function
parameters, since they read only node coordinates and edge lengths, which
the fusion engine never modifies.
-/

namespace IGo

/-- A maxspeed attribute value: in the OSM data an edge either carries a
single maxspeed string, or a list of two values (the source indexes only
positions 0 and 1 of such a list: free-flow and congested speed). -/
inductive MaxSpeedVal where
  | one (v : ℚ)
  | two (a b : ℚ)
deriving DecidableEq, Repr

/-- Attribute dictionary of one edge of the (multi-di)graph: `length` is
always present in the OSM graph; `maxspeed`, `congestion` and `itime` may
be absent (`none`), matching the Python `'key' in way` tests. -/
structure IEdgeData where
  length : ℚ
  maxspeed : Option MaxSpeedVal
  congestion : Option ℕ
  itime : Option ℚ
deriving DecidableEq, Repr

/-- One edge of the multigraph: endpoints `src`, `tgt`, the multi-edge
`key`, and the attribute dictionary. -/
structure IEdge where
  src : ℕ
  tgt : ℕ
  key : ℕ
  data : IEdgeData
deriving DecidableEq, Repr

/-- The networkx `MultiDiGraph`: a node list and an edge list (list order
models the deterministic Python insertion/iteration order). -/
structure SGraph where
  nodes : List ℕ
  edges : List IEdge
deriving DecidableEq, Repr

instance : Inhabited IEdgeData := ⟨⟨0, none, none, none⟩⟩

instance : Inhabited IEdge := ⟨⟨0, 0, 0, default⟩⟩

/-- The `Highway` named tuple of igo.py, with the coordinate string already
split on commas and parsed to numbers (the alternating lon/lat list). -/
structure Highway where
  way_id : ℕ
  name : String
  coordinates : List ℚ
deriving DecidableEq, Repr

instance : Inhabited Highway := ⟨⟨0, "", []⟩⟩

/-- The `Congestion` named tuple of igo.py: a way id, a date string, and
the usual/actual congestion levels. -/
structure Congestion where
  way_id : ℕ
  date : String
  usual : ℕ
  actual : ℕ
deriving DecidableEq, Repr

/-- Embeds `igo.get_congestion` (igo.py lines 259-284): if both readings
are "no data" (0) return 2; else if the actual reading is nonzero and
differs from the usual one return it; else return the usual reading. -/
def get_congestion (c : Congestion) : ℕ :=
  if c.usual = 0 ∧ c.actual = 0 then 2
  else if c.usual ≠ c.actual ∧ c.actual ≠ 0 then c.actual
  else c.usual

/-! ### The fallback-and-weighting pass (igo.py lines 374-402) -/

/-- The speed the weighting pass divides by: a single maxspeed value is
used as is; of a two-valued maxspeed the source takes index 0 when
`congestion <= "2"` and index 1 otherwise. -/
def speedOf (cong : ℕ) : MaxSpeedVal → ℚ
  | .one v => v
  | .two a b => if cong ≤ 2 then a else b

/-- Embeds the body of the fallback-and-weighting loop for a single edge
dictionary, with `length` the value bound by the enclosing
`graph.edges.data('length')` iteration: default the congestion to 2 and
the maxspeed to 30 when absent, select the speed, and compute
`itime = float(length) * float(congestion) / float(speed)`.  A selected
speed of 0 makes the Python float division raise `ZeroDivisionError`,
modelled by `Except.error`. -/
def updKeyD (length : ℚ) (d : IEdgeData) : Except Unit IEdgeData :=
  let c := d.congestion.getD 2
  let m := d.maxspeed.getD (.one 30)
  let s := speedOf c m
  if s = 0 then .error ()
  else .ok { d with
    congestion := some c
    maxspeed := some m
    itime := some (length * (c : ℚ) / s) }

/-- Lookup of `graph[u][v][k]` in the edge list. -/
def lookupEdge (g : SGraph) (u v k : ℕ) : Option IEdgeData :=
  (g.edges.find? (fun e => e.src = u ∧ e.tgt = v ∧ e.key = k)).map IEdge.data

/-- Replacing the attribute dictionary of edge `(u, v, k)`. -/
def replaceEdge (g : SGraph) (u v k : ℕ) (d : IEdgeData) : SGraph :=
  { g with edges := g.edges.map (fun e =>
      if e.src = u ∧ e.tgt = v ∧ e.key = k then { e with data := d } else e) }

/-- The keys of the adjacency dictionary `graph[u][v]`, in insertion
order, read from an edge-skeleton list of `(src, tgt, key)` triples. -/
def adjKeys (sk : List (ℕ × ℕ × ℕ)) (u v : ℕ) : List ℕ :=
  (sk.filter (fun t => t.1 = u ∧ t.2.1 = v)).map (fun t => t.2.2)

/-- The structural skeleton of the graph: its `(src, tgt, key)` triples. -/
def skelEdges (g : SGraph) : List (ℕ × ℕ × ℕ) :=
  g.edges.map (fun e => (e.src, e.tgt, e.key))

/-- Embeds the inner `for i in graph[u][v]` loop of the weighting pass:
every parallel edge of `(u, v)` is re-weighted using the `length` bound by
the outer iteration.  Iterating a key that disappeared is impossible
(nothing removes edges); a failed lookup is modelled as an error. -/
def phase2Keys (length : ℚ) (u v : ℕ) : SGraph → List ℕ → Except Unit SGraph
  | g, [] => .ok g
  | g, k :: ks =>
    match lookupEdge g u v k with
    | none => .error ()
    | some d =>
      match updKeyD length d with
      | .error _ => .error ()
      | .ok d' => phase2Keys length u v (replaceEdge g u v k d') ks

/-- Embeds the outer `for (u, v, length) in graph.edges.data('length')`
loop of the weighting pass over a pre-captured worklist (the pass never
changes the edge structure or the lengths it iterates over). -/
def phase2Outer : SGraph → List (ℕ × ℕ × ℚ) → Except Unit SGraph
  | g, [] => .ok g
  | g, (u, v, length) :: rest =>
    match phase2Keys length u v g (adjKeys (skelEdges g) u v) with
    | .error _ => .error ()
    | .ok g' => phase2Outer g' rest

/-- The complete fallback-and-weighting pass (igo.py lines 374-402). -/
def phase2 (g : SGraph) : Except Unit SGraph :=
  phase2Outer g (g.edges.map (fun e => (e.src, e.tgt, e.data.length)))

/-! ### Per-edge form of the weighting pass

The graph this program builds has no parallel edges: `download_graph`
collapses the OSM graph through `get_digraph` before re-wrapping it as a
`MultiDiGraph`, so each `(u, v)` pair carries exactly one key.  On such
graphs the cross-key iteration of `phase2` coincides with an independent
per-edge pass, proved below in `phase2_eq_simple`. -/

/-- The weighting pass applied to one edge with its own length. -/
def fallbackEdge (e : IEdge) : Except Unit IEdge :=
  match updKeyD e.data.length e.data with
  | .error _ => .error ()
  | .ok d' => .ok { e with data := d' }

/-- Sequencing `fallbackEdge` over an edge list. -/
def mapFallback : List IEdge → Except Unit (List IEdge)
  | [] => .ok []
  | e :: es =>
    match fallbackEdge e with
    | .error _ => .error ()
    | .ok e' =>
      match mapFallback es with
      | .error _ => .error ()
      | .ok es' => .ok (e' :: es')

/-- Independent per-edge weighting pass. -/
def phase2Simple (g : SGraph) : Except Unit SGraph :=
  match mapFallback g.edges with
  | .error _ => .error ()
  | .ok es => .ok { g with edges := es }

/-- Two edges do not share the same `(src, tgt)` pair. -/
def uvDistinct (e1 e2 : IEdge) : Prop := ¬(e1.src = e2.src ∧ e1.tgt = e2.tgt)

instance : DecidableRel uvDistinct := fun e1 e2 =>
  decidable_of_iff (¬(e1.src = e2.src ∧ e1.tgt = e2.tgt)) Iff.rfl

/-- No two distinct edges of the graph share the same `(src, tgt)` pair;
this holds for every graph `download_graph` produces. -/
def noParallel (g : SGraph) : Prop :=
  g.edges.Pairwise uvDistinct

instance (g : SGraph) : Decidable (noParallel g) := by
  unfold noParallel
  infer_instance

/-- The speed the weighting pass would select for an edge as it currently
stands. -/
def speedSel (e : IEdge) : ℚ :=
  speedOf (e.data.congestion.getD 2) (e.data.maxspeed.getD (.one 30))

/-- Well-formedness of a maxspeed attribute: speeds are positive, and a
two-valued maxspeed lists the free-flow value first, at least as large as
the congested value (the source comment: take the highest one if the
congestion is low). -/
def mspWellFormed : Option MaxSpeedVal → Prop
  | none => True
  | some (.one v) => 0 < v
  | some (.two a b) => 0 < b ∧ b ≤ a

/-- Total companion of `fallbackEdge`: its `ok`-value (meaningful whenever
`speedSel e ≠ 0`). -/
def fallbackF (e : IEdge) : IEdge :=
  let c := e.data.congestion.getD 2
  let m := e.data.maxspeed.getD (.one 30)
  { e with data := { e.data with
      congestion := some c
      maxspeed := some m
      itime := some (e.data.length * (c : ℚ) / speedOf c m) } }

/-! ### The segment-matching stamping pass (igo.py lines 348-373)

The loop structure of the source is:

  for x in range(0, len(highways)):
    coordinates = highways[x].coordinates.split(',')
    for y in range(0, len(congestions)):
      if highways[x].way_id == congestions[y].way_id:
        congestion_level = get_congestion(congestions[y])
        for i in range(0, len(coordinates) - 3, 4):
          node_start/node_end = nearest_nodes(graph, ..swapped coords..)
          try:
            shortest_rute = shortest_path(graph, node_start, node_end, 'length')
            for x in range(0, len(shortest_rute) - 1, 2):
              for j in graph[x][x+1]:
                graph[shortest_rute[x]][shortest_rute[x+1]][j]['congestion'] = ...
          except: pass

Modelled faithfully, including: the step of 2 over the path positions; the
adjacency lookups graph[x][x+1] keyed by the loop INDEX x (a KeyError,
caught by the bare except, aborts the rest of the group's stamping while
keeping earlier writes); the rebinding of the outer variable x by the
inner loop, which makes later highways[x] reads in the y-loop use the
mutated index (an IndexError there is NOT caught and aborts build_igraph,
modelled as Except.error); and osmnx shortest_path returning None when no
path exists (the subsequent len(None) TypeError is caught: the group is
skipped silently).

All graph reads performed by the loop are structural: node membership
(graph[x]), adjacency key sets (graph[x][x+1] and the stamped target),
while its writes touch only the 'congestion' attribute, so the stamping
decisions are computed against the structural skeleton, which the writes
preserve (skelOf_applyStamps below), and the writes are applied in order at
the end (applyStamps). -/

/-- The node list plus edge skeleton actually read by the stamping loop. -/
structure SkelG where
  nodes : List ℕ
  arcs : List (ℕ × ℕ × ℕ)
deriving DecidableEq, Repr

/-- Structural view of a graph. -/
def skelOf (g : SGraph) : SkelG := ⟨g.nodes, skelEdges g⟩

/-- Embeds Python range(0, m, 2). -/
def evens (m : ℕ) : List ℕ := (List.range m).filter (fun i => i % 2 = 0)

/-- Embeds Python range(0, n - 3, 4). -/
def quads (n : ℕ) : List ℕ := (List.range (n - 3)).filter (fun i => i % 4 = 0)

/-- Embeds the innermost stamping loop, for j in graph[x][x+1], with `a`,
`b` the path nodes shortest_rute[x], shortest_rute[x+1]: each iteration
writes the congestion of edge `(a, b, j)` after the lookups
graph[a][b][j]; a failing lookup raises a KeyError (second component
false) that discards the remaining iterations but keeps earlier writes. -/
def stampJ (s : SkelG) (a b : ℕ) : List ℕ → List (ℕ × ℕ × ℕ) × Bool
  | [] => ([], true)
  | j :: js =>
    if a ∈ s.nodes ∧ (a, b, j) ∈ s.arcs then
      let r := stampJ s a b js
      ((a, b, j) :: r.1, r.2)
    else ([], false)

/-- Embeds the for x in range(0, len(shortest_rute)-1, 2) loop.  The first
argument after `rute` is the current value of the Python variable x; the
result carries the writes and the final value of x (rebound to every index
the loop enters, kept when the iteration list is empty).  A KeyError on
graph[x2][x2+1] (x2 not a node, or no adjacency) or inside `stampJ`
aborts the loop. -/
def stampX (s : SkelG) (rute : List ℕ) : ℕ → List ℕ → List (ℕ × ℕ × ℕ) × ℕ
  | xcur, [] => ([], xcur)
  | _, x2 :: xs =>
    if x2 ∈ s.nodes ∧ adjKeys s.arcs x2 (x2 + 1) ≠ [] then
      let a := rute.getD x2 0
      let b := rute.getD (x2 + 1) 0
      let r := stampJ s a b (adjKeys s.arcs x2 (x2 + 1))
      if r.2 then
        let r2 := stampX s rute x2 xs
        (r.1 ++ r2.1, r2.2)
      else (r.1, x2)
    else ([], x2)

/-- Embeds the try/except around one coordinate group: when shortest_path
returns None the len() call raises a caught TypeError and the group is
skipped silently; otherwise the stamping loop runs. -/
def stampGroup (s : SkelG) (route : Option (List ℕ)) (xcur : ℕ) :
    List (ℕ × ℕ × ℕ) × ℕ :=
  match route with
  | none => ([], xcur)
  | some rute => stampX s rute xcur (evens (rute.length - 1))

/-- Embeds the for i in range(0, len(coordinates)-3, 4) loop over the
coordinate groups of one (highway, congestion) match.  The source passes
the nearest_nodes arguments in swapped order — coordinates[i+1] (the
latitude of the alternating lon/lat list) where osmnx expects the
longitude — reproduced here. -/
def stampQuads (s : SkelG) (nearest : ℚ → ℚ → ℕ) (spath : ℕ → ℕ → Option (List ℕ))
    (c : List ℚ) : ℕ → List ℕ → List (ℕ × ℕ × ℕ) × ℕ
  | xcur, [] => ([], xcur)
  | xcur, i :: is =>
    let ns := nearest (c.getD (i + 1) 0) (c.getD i 0)
    let ne := nearest (c.getD (i + 3) 0) (c.getD (i + 2) 0)
    let r1 := stampGroup s (spath ns ne) xcur
    let r2 := stampQuads s nearest spath c r1.2 is
    (r1.1 ++ r2.1, r2.2)

/-- Embeds the for y in range(0, len(congestions)) loop.  The match
condition reads highways[x] with the CURRENT value of the Python variable
x, which the inner stamping loop may have rebound; an out-of-range read is
an uncaught IndexError that aborts build_igraph.  The coordinate list `c`
was bound from the enclosing highway before this loop and is not
re-read. -/
def stampCgs (s : SkelG) (nearest : ℚ → ℚ → ℕ) (spath : ℕ → ℕ → Option (List ℕ))
    (hws : List Highway) (c : List ℚ) :
    ℕ → List Congestion → Except Unit (List ((ℕ × ℕ × ℕ) × ℕ) × ℕ)
  | xcur, [] => .ok ([], xcur)
  | xcur, cg :: cgs =>
    match hws[xcur]? with
    | none => .error ()
    | some hx =>
      if hx.way_id = cg.way_id then
        let lvl := get_congestion cg
        let r := stampQuads s nearest spath c xcur (quads c.length)
        match stampCgs s nearest spath hws c r.2 cgs with
        | .error _ => .error ()
        | .ok r2 => .ok (r.1.map (fun w => (w, lvl)) ++ r2.1, r2.2)
      else stampCgs s nearest spath hws c xcur cgs

/-- Embeds the outer for x in range(0, len(highways)) loop: each iteration
rebinds x to the highway index and re-reads the coordinate list. -/
def stampRunGo (s : SkelG) (nearest : ℚ → ℚ → ℕ) (spath : ℕ → ℕ → Option (List ℕ))
    (hws : List Highway) (cgs : List Congestion) :
    List ℕ → Except Unit (List ((ℕ × ℕ × ℕ) × ℕ))
  | [] => .ok []
  | x0 :: xs =>
    match stampCgs s nearest spath hws (hws.getD x0 default).coordinates x0 cgs with
    | .error _ => .error ()
    | .ok r =>
      match stampRunGo s nearest spath hws cgs xs with
      | .error _ => .error ()
      | .ok ws => .ok (r.1 ++ ws)

/-- The ordered list of congestion writes of the whole stamping pass (or
an uncaught IndexError). -/
def stampRun (s : SkelG) (nearest : ℚ → ℚ → ℕ) (spath : ℕ → ℕ → Option (List ℕ))
    (hws : List Highway) (cgs : List Congestion) :
    Except Unit (List ((ℕ × ℕ × ℕ) × ℕ)) :=
  stampRunGo s nearest spath hws cgs (List.range hws.length)

/-- One congestion write: graph[u][v][k]['congestion'] = lvl. -/
def setCong (g : SGraph) (w : ℕ × ℕ × ℕ) (lvl : ℕ) : SGraph :=
  { g with edges := g.edges.map (fun e =>
      if (e.src, e.tgt, e.key) = w then
        { e with data := { e.data with congestion := some lvl } }
      else e) }

/-- Applying the writes of the stamping pass in order. -/
def applyStamps (g : SGraph) (ws : List ((ℕ × ℕ × ℕ) × ℕ)) : SGraph :=
  ws.foldl (fun g wl => setCong g wl.1 wl.2) g

/-- The congestion an edge triple `t` holds after the ordered write list
`ws`, starting from the congestion value `c` (that is, the value of the
last write to `t`, if any). -/
def stampVal (ws : List ((ℕ × ℕ × ℕ) × ℕ)) (t : ℕ × ℕ × ℕ) (c : Option ℕ) : Option ℕ :=
  ws.foldl (fun acc wl => if t = wl.1 then some wl.2 else acc) c

/-- The complete stamping pass (igo.py lines 348-373): compute the write
list against the structural skeleton — which the writes themselves never
change — and apply it. -/
def phase1 (nearest : ℚ → ℚ → ℕ) (spath : ℕ → ℕ → Option (List ℕ))
    (g : SGraph) (hws : List Highway) (cgs : List Congestion) : Except Unit SGraph :=
  match stampRun (skelOf g) nearest spath hws cgs with
  | .error _ => .error ()
  | .ok ws => .ok (applyStamps g ws)

/-- Embeds igo.build_igraph (igo.py lines 329-403): the stamping pass
followed by the fallback-and-weighting pass.  The osmnx helpers
nearest_nodes and length-weighted shortest_path are opaque parameters:
they read only node coordinates and edge lengths, which build_igraph never
writes. -/
def build_igraph (nearest : ℚ → ℚ → ℕ) (spath : ℕ → ℕ → Option (List ℕ))
    (g : SGraph) (hws : List Highway) (cgs : List Congestion) : Except Unit SGraph :=
  match phase1 nearest spath g hws cgs with
  | .error _ => .error ()
  | .ok g1 => phase2 g1

/-! ### Staleness handling (igo.py update_graph, bot.py main) -/

/-- Embeds igo.update_graph (igo.py lines 514-522), with time in minutes:
when more than 5 minutes have elapsed the congestions are re-downloaded
(the fresh list is the `congestions_fresh` parameter; the caller's stale
list is unused) and a new igraph is built from `graph`; otherwise the
current igraph is returned unchanged.  The function returns only the
graph: it neither receives nor resets any build clock beyond its read-only
`start_time` argument. -/
def update_graph (nearest : ℚ → ℚ → ℕ) (spath : ℕ → ℕ → Option (List ℕ))
    (start_time current_time : ℚ) (igraph graph : SGraph)
    (highways : List Highway) (congestions_fresh : List Congestion) :
    Except Unit SGraph :=
  if current_time - start_time > 5 then
    build_igraph nearest spath graph highways congestions_fresh
  else .ok igraph

/-- The process-wide mutable state of bot.py relevant to staleness:
START_TIME (the build clock, in minutes) and IGRAPH. -/
structure BotState where
  start_time : ℚ
  igraph : SGraph
deriving DecidableEq, Repr

/-- Embeds the effect of the /go handler of bot.py (lines 253-311) on the
shared state: the handler reads IGRAPH to compute and plot a path but
contains no staleness check and no assignment to IGRAPH or START_TIME, so
the state after a route query is the state before it. -/
def goHandlerState (s : BotState) (_query_time : ℚ) : BotState := s

/-- Embeds the staleness block of bot.py (lines 334-345).  The guard in
the source, if CommandHandler('go', go):, constructs a (always truthy)
handler object instead of hooking the go command, so this block executes
exactly once at module load, before start_polling: when more than 5
minutes have elapsed since START_TIME it re-downloads the congestions,
rebuilds IGRAPH and resets START_TIME to the current time. -/
def botStartupCheck (nearest : ℚ → ℚ → ℕ) (spath : ℕ → ℕ → Option (List ℕ))
    (s : BotState) (current_time : ℚ) (graph : SGraph)
    (highways : List Highway) (congestions_fresh : List Congestion) :
    Except Unit BotState :=
  if current_time - s.start_time > 5 then
    match build_igraph nearest spath graph highways congestions_fresh with
    | .error _ => .error ()
    | .ok ig => .ok ⟨current_time, ig⟩
  else .ok s

/-! ### The route planner (igo.py get_shortest_path_with_ispeeds, 406-446) -/

/-- Existence of at least one edge from `a` to `b`. -/
def hasArc (g : SGraph) (a b : ℕ) : Bool :=
  g.edges.any (fun e => decide (e.src = a ∧ e.tgt = b))

/-- The networkx multi-digraph edge weight between two adjacent nodes for
the itime key: the minimum of the attribute over the parallel edges,
defaulting to 1 when an edge lacks the attribute (networkx
`attr.get(weight, 1)`).  Unused (0) when no edge exists. -/
def arcW (g : SGraph) (a b : ℕ) : ℚ :=
  match (g.edges.filter (fun e => decide (e.src = a ∧ e.tgt = b))).map
      (fun e => e.data.itime.getD 1) with
  | [] => 0
  | w :: ws => ws.foldl min w

/-- A walk from `o` to `d`: a nonempty node list that starts at `o`, ends
at `d`, and has an edge between every consecutive pair. -/
def isWalk (g : SGraph) (o d : ℕ) (p : List ℕ) : Prop :=
  p ≠ [] ∧ p.head? = some o ∧ p.getLast? = some d ∧
    List.Chain' (fun a b => hasArc g a b = true) p

instance (g : SGraph) (o d : ℕ) (p : List ℕ) : Decidable (isWalk g o d p) := by
  unfold isWalk
  infer_instance

/-- Cumulative itime cost of a walk. -/
def walkCost (g : SGraph) : List ℕ → ℚ
  | a :: b :: t => arcW g a b + walkCost g (b :: t)
  | _ => 0

/-- The successor nodes of `a`. -/
def succs (g : SGraph) (a : ℕ) : List ℕ :=
  ((g.edges.filter (fun e => decide (e.src = a))).map (fun e => e.tgt)).dedup

/-- All simple walks from `cur` to `d` avoiding `visited`, where `fuel`
bounds the number of further hops. -/
def spAux (g : SGraph) (d : ℕ) : ℕ → List ℕ → ℕ → List (List ℕ)
  | fuel, visited, cur =>
    if cur = d then [[d]]
    else
      match fuel with
      | 0 => []
      | f + 1 =>
        ((succs g cur).filter (fun n => !((cur :: visited).contains n))).flatMap
          (fun n => (spAux g d f (cur :: visited) n).map (fun p => cur :: p))

/-- The first minimum-cost element of a candidate list. -/
def pickMin (g : SGraph) : List (List ℕ) → Option (List ℕ)
  | [] => none
  | p :: ps =>
    match pickMin g ps with
    | none => some p
    | some q => if walkCost g q < walkCost g p then some q else some p

/-- Modelled from the spec: the external osmnx shortest-path primitive
(spec section 6, `shortestPath(graph, from, to, weightKey)`; section 4.4
route planner).  The osmnx implementation is not part of this repository;
per the spec it returns the ordered node sequence of a shortest path by
the cumulative weight between two nodes of the graph and fails — None
from osmnx, surfaced as `NoRouteFound` to the caller — when they are not
connected.  The model enumerates the simple walks and takes a cheapest
one. -/
def shortestPathModel (g : SGraph) (o d : ℕ) : Option (List ℕ) :=
  if o ∈ g.nodes ∧ d ∈ g.nodes then pickMin g (spAux g d g.nodes.length [] o)
  else none

/-- Embeds igo.get_shortest_path_with_ispeeds (igo.py lines 406-446): each
location is geocoded (external collaborator returning (lat, lon)), snapped
to the nearest node of the published igraph (external; the source passes
(lon, lat) here in the correct order), and the itime-weighted shortest
path between the snapped nodes is returned. -/
def get_shortest_path_with_ispeeds (igraph : SGraph) (geocode : String → ℚ × ℚ)
    (nearest : SGraph → ℚ → ℚ → ℕ) (actual_location dest_location : String) :
    Option (List ℕ) :=
  let actual_loc := geocode actual_location
  let dest_loc := geocode dest_location
  let actual_node := nearest igraph actual_loc.2 actual_loc.1
  let dest_node := nearest igraph dest_loc.2 dest_loc.1
  shortestPathModel igraph actual_node dest_node

/-- Two nodes are connected when some walk joins them. -/
def Connected (g : SGraph) (o d : ℕ) : Prop := ∃ p, isWalk g o d p

/-! ### Concrete fixtures used by the claim theorems -/

/-- Trivial nearest-node oracle. -/
def nearestNone : ℚ → ℚ → ℕ := fun _ _ => 0

/-- Shortest-path oracle that finds no path. -/
def spathNone : ℕ → ℕ → Option (List ℕ) := fun _ _ => none

/-- A two-edge chain 0 → 1 → 2. -/
def c1Graph : SGraph :=
  ⟨[0, 1, 2],
   [⟨0, 1, 0, ⟨10, none, none, none⟩⟩,
    ⟨1, 2, 0, ⟨10, none, none, none⟩⟩]⟩

/-- The same chain on nodes 10 → 11 → 12. -/
def c1GraphB : SGraph :=
  ⟨[10, 11, 12],
   [⟨10, 11, 0, ⟨10, none, none, none⟩⟩,
    ⟨11, 12, 0, ⟨10, none, none, none⟩⟩]⟩

/-- Nearest-node oracle snapping the first coordinate pair to 0 and the
second to 2. -/
def c1Nearest : ℚ → ℚ → ℕ := fun a _ => if a = 2 then 0 else 2

/-- Nearest-node oracle snapping the first pair to 10, the second to 12. -/
def c1NearestB : ℚ → ℚ → ℕ := fun a _ => if a = 2 then 10 else 12

/-- Length-shortest-path oracle for the chain 0 → 1 → 2. -/
def c1Spath : ℕ → ℕ → Option (List ℕ) :=
  fun a b => if a = 0 ∧ b = 2 then some [0, 1, 2] else none

/-- Length-shortest-path oracle for the chain 10 → 11 → 12. -/
def c1SpathB : ℕ → ℕ → Option (List ℕ) :=
  fun a b => if a = 10 ∧ b = 12 then some [10, 11, 12] else none

/-- One highway with a single coordinate group (two lon/lat pairs). -/
def c1Highways : List Highway := [⟨7, "Carrer A", [1, 2, 3, 4]⟩]

/-- One congestion sample for that highway reconciling to level 4. -/
def c1Congestions : List Congestion := [⟨7, "2021-05-18", 2, 4⟩]

/-- The chain fixture after the stamping pass: the first edge carries the
reconciled level 4, the second is untouched. -/
def c1Stamped : SGraph :=
  ⟨[0, 1, 2],
   [⟨0, 1, 0, ⟨10, none, some 4, none⟩⟩,
    ⟨1, 2, 0, ⟨10, none, none, none⟩⟩]⟩

/-- The chain fixture after the full build. -/
def c1Built : SGraph :=
  ⟨[0, 1, 2],
   [⟨0, 1, 0, ⟨10, some (.one 30), some 4, some (4 / 3)⟩⟩,
    ⟨1, 2, 0, ⟨10, some (.one 30), some 2, some (2 / 3)⟩⟩]⟩

/-- A single edge whose maxspeed resolves to 0. -/
def zeroSpeedGraph : SGraph :=
  ⟨[0, 1], [⟨0, 1, 0, ⟨100, some (.one 0), none, none⟩⟩]⟩

/-- A single plain edge (length 10, no optional attributes). -/
def c6Graph : SGraph := ⟨[0, 1], [⟨0, 1, 0, ⟨10, none, none, none⟩⟩]⟩

/-- An empty graph, used as a placeholder published igraph. -/
def emptyGraph : SGraph := ⟨[], []⟩

/-- A weighted one-edge graph for the planner. -/
def c4Graph : SGraph := ⟨[0, 1], [⟨0, 1, 0, ⟨10, some (.one 30), some 2, some 1⟩⟩]⟩

/-- Geocoder fixture: location "A" is at (lat 41, lon 2), anything else at
(lat 42, lon 3). -/
def c4Geocode : String → ℚ × ℚ := fun s => if s = "A" then (41, 2) else (42, 3)

/-- Nearest-node fixture keyed on the longitude. -/
def c4Nearest : SGraph → ℚ → ℚ → ℕ := fun _ x _ => if x = 2 then 0 else 1

/-- Three-edge fixture for the weighting pass: one edge with no optional
attributes, and two edges with a two-valued maxspeed on either side of
the congestion threshold. -/
def c3Graph : SGraph :=
  ⟨[0, 1, 2, 3],
   [⟨0, 1, 0, ⟨30, none, none, none⟩⟩,
    ⟨1, 2, 0, ⟨60, some (.two 50 20), some 2, none⟩⟩,
    ⟨2, 3, 0, ⟨60, some (.two 50 20), some 4, none⟩⟩]⟩

/-- The weighted result of the fixture. -/
def c3Built : SGraph :=
  ⟨[0, 1, 2, 3],
   [⟨0, 1, 0, ⟨30, some (.one 30), some 2, some 2⟩⟩,
    ⟨1, 2, 0, ⟨60, some (.two 50 20), some 2, some (12 / 5)⟩⟩,
    ⟨2, 3, 0, ⟨60, some (.two 50 20), some 4, some 12⟩⟩]⟩

instance {ε α : Type} [DecidableEq ε] [DecidableEq α] : DecidableEq (Except ε α) :=
  fun a b =>
  match a, b with
  | .error e, .error f => decidable_of_iff (e = f) (by simp)
  | .error _, .ok _ => isFalse (fun h => Except.noConfusion h)
  | .ok _, .error _ => isFalse (fun h => Except.noConfusion h)
  | .ok x, .ok y => decidable_of_iff (x = y) (by simp)

/-! ## Theorems -/

theorem fallbackEdge_eq (e : IEdge) :
    fallbackEdge e = if speedSel e = 0 then .error () else .ok (fallbackF e) := by
  simp only [fallbackEdge, updKeyD, speedSel, fallbackF]
  by_cases h : speedOf (e.data.congestion.getD 2) (e.data.maxspeed.getD (.one 30)) = 0 <;>
    simp [h]

theorem mapFallback_eq (es : List IEdge) :
    mapFallback es =
      if es.all (fun e => speedSel e ≠ 0) then .ok (es.map fallbackF) else .error () := by
  induction es with
  | nil => simp [mapFallback]
  | cons e es ih =>
    simp only [mapFallback, fallbackEdge_eq, ih, List.all_cons, List.map_cons]
    by_cases h : speedSel e = 0
    · simp [h]
    · by_cases h2 : es.all (fun e => speedSel e ≠ 0) = true
      · simp_all
      · rw [Bool.not_eq_true] at h2
        have hall : ¬ (∀ x ∈ es, ¬ speedSel x = 0) := by simpa using h2
        simp only [ih, List.all_eq_true, decide_eq_true_eq]
        rw [if_neg h, if_neg hall]
        simp [h2]
        rw [if_neg (fun hc => hall hc.2)]

/-! ### The weighting pass on parallel-edge-free graphs -/

theorem map_eq_self_of {α : Type} (l : List α) (f : α → α) (h : ∀ x ∈ l, f x = x) :
    l.map f = l := by
  induction l with
  | nil => rfl
  | cons a l ih =>
    rw [List.map_cons, h a (by simp), ih (fun x hx => h x (by simp [hx]))]

theorem find?_append_none {α : Type} (p : α → Bool) (l1 l2 : List α)
    (h : ∀ x ∈ l1, ¬ p x = true) : (l1 ++ l2).find? p = l2.find? p := by
  induction l1 with
  | nil => rfl
  | cons a l ih =>
    have ha : p a = false := by
      have := h a (by simp)
      simpa using this
    simp only [List.cons_append, List.find?, ha]
    exact ih (fun x hx => h x (by simp [hx]))

theorem adjKeys_append (sk1 sk2 : List (ℕ × ℕ × ℕ)) (u v : ℕ) :
    adjKeys (sk1 ++ sk2) u v = adjKeys sk1 u v ++ adjKeys sk2 u v := by
  simp [adjKeys]

theorem adjKeys_nil_of (sk : List (ℕ × ℕ × ℕ)) (u v : ℕ)
    (h : ∀ t ∈ sk, ¬(t.1 = u ∧ t.2.1 = v)) : adjKeys sk u v = [] := by
  unfold adjKeys
  rw [List.filter_eq_nil_iff.2 (by intro t ht; simpa using h t ht)]
  rfl

theorem pairwise_mid {done todo : List IEdge} {e e' : IEdge}
    (hs : e'.src = e.src) (ht : e'.tgt = e.tgt)
    (h : (done ++ e :: todo).Pairwise uvDistinct) :
    (done ++ e' :: todo).Pairwise uvDistinct := by
  rw [List.pairwise_append] at h ⊢
  obtain ⟨h1, h2, h3⟩ := h
  rw [List.pairwise_cons] at h2 ⊢
  refine ⟨h1, ⟨?_, h2.2⟩, ?_⟩
  · intro t htm
    have := h2.1 t htm
    simpa [uvDistinct, hs, ht] using this
  · intro a ha b hb
    rcases List.mem_cons.1 hb with hb | hb
    · subst hb
      have := h3 a ha e (by simp)
      simpa [uvDistinct, hs, ht] using this
    · exact h3 a ha b (by simp [hb])

theorem adjKeys_of_distinct (nodes : List ℕ) (done todo : List IEdge) (e : IEdge)
    (h : (done ++ e :: todo).Pairwise uvDistinct) :
    adjKeys (skelEdges ⟨nodes, done ++ e :: todo⟩) e.src e.tgt = [e.key] := by
  rw [List.pairwise_append] at h
  obtain ⟨h1, h2, h3⟩ := h
  rw [List.pairwise_cons] at h2
  unfold skelEdges
  dsimp only
  rw [List.map_append, adjKeys_append]
  rw [adjKeys_nil_of _ _ _ (by
    intro t htm
    obtain ⟨d, hd, rfl⟩ := List.mem_map.1 htm
    have := h3 d hd e (by simp)
    simpa [uvDistinct] using this)]
  simp only [List.map_cons, List.nil_append]
  unfold adjKeys
  rw [List.filter_cons_of_pos (by simp)]
  rw [List.filter_eq_nil_iff.2 (by
    intro t htm
    obtain ⟨d, hd, rfl⟩ := List.mem_map.1 htm
    have := h2.1 d hd
    simp only [uvDistinct] at this
    simp only [decide_eq_true_eq]
    intro hc
    exact this ⟨hc.1.symm, hc.2.symm⟩)]
  rfl

theorem lookupEdge_of_distinct (nodes : List ℕ) (done todo : List IEdge) (e : IEdge)
    (h : (done ++ e :: todo).Pairwise uvDistinct) :
    lookupEdge ⟨nodes, done ++ e :: todo⟩ e.src e.tgt e.key = some e.data := by
  rw [List.pairwise_append] at h
  obtain ⟨_, _, h3⟩ := h
  unfold lookupEdge
  dsimp only
  rw [find?_append_none _ _ _ (by
    intro d hd
    have := h3 d hd e (by simp)
    simp only [uvDistinct] at this
    simp only [decide_eq_true_eq]
    intro hc
    exact this ⟨hc.1, hc.2.1⟩)]
  rw [List.find?_cons_of_pos _ (by simp)]
  rfl

theorem replaceEdge_of_distinct (nodes : List ℕ) (done todo : List IEdge) (e : IEdge)
    (d' : IEdgeData) (h : (done ++ e :: todo).Pairwise uvDistinct) :
    replaceEdge ⟨nodes, done ++ e :: todo⟩ e.src e.tgt e.key d' =
      ⟨nodes, done ++ { e with data := d' } :: todo⟩ := by
  rw [List.pairwise_append] at h
  obtain ⟨_, h2, h3⟩ := h
  rw [List.pairwise_cons] at h2
  unfold replaceEdge
  dsimp only
  congr 1
  rw [List.map_append, List.map_cons]
  rw [map_eq_self_of _ _ (by
    intro d hd
    have := h3 d hd e (by simp)
    simp only [uvDistinct] at this
    rw [if_neg (fun hc => this ⟨hc.1, hc.2.1⟩)])]
  rw [if_pos ⟨rfl, rfl, rfl⟩]
  rw [map_eq_self_of _ _ (by
    intro t htm
    have := h2.1 t htm
    simp only [uvDistinct] at this
    rw [if_neg (fun hc => this ⟨hc.1.symm, hc.2.1.symm⟩)])]

theorem phase2Outer_go (nodes : List ℕ) :
    ∀ (todo done : List IEdge),
      (done ++ todo).Pairwise uvDistinct →
      phase2Outer ⟨nodes, done ++ todo⟩
          (todo.map (fun e => (e.src, e.tgt, e.data.length))) =
        match mapFallback todo with
        | .error _ => .error ()
        | .ok todo' => .ok ⟨nodes, done ++ todo'⟩ := by
  intro todo
  induction todo with
  | nil =>
    intro done h
    simp [phase2Outer, mapFallback]
  | cons e todo ih =>
    intro done h
    simp only [List.map_cons, phase2Outer,
      adjKeys_of_distinct nodes done todo e h]
    simp only [phase2Keys, lookupEdge_of_distinct nodes done todo e h]
    cases hu : updKeyD e.data.length e.data with
    | error u =>
      have hf : fallbackEdge e = .error () := by rw [fallbackEdge, hu]
      simp [mapFallback, hf]
    | ok d' =>
      have hf : fallbackEdge e = .ok { e with data := d' } := by rw [fallbackEdge, hu]
      simp only [replaceEdge_of_distinct nodes done todo e d' h]
      have hp : (done ++ { e with data := d' } :: todo).Pairwise uvDistinct :=
        @pairwise_mid done todo e { e with data := d' } rfl rfl h
      have hgo := ih (done ++ [{ e with data := d' }])
        (by simpa [List.append_assoc] using hp)
      rw [show (done ++ [{ e with data := d' }]) ++ todo =
            done ++ { e with data := d' } :: todo by simp] at hgo
      simp only [mapFallback, hf]
      cases hm : mapFallback todo with
      | error u2 =>
        rw [hm] at hgo
        simpa [phase2Keys] using hgo
      | ok todo' =>
        rw [hm] at hgo
        simp only [phase2Keys]
        rw [hgo]
        simp

theorem phase2_eq_simple (g : SGraph) (hnp : noParallel g) :
    phase2 g = phase2Simple g := by
  cases g with
  | mk nodes edges =>
    have h := phase2Outer_go nodes edges []
      (by simpa [noParallel] using hnp)
    simp only [List.nil_append] at h
    exact h

theorem phase2_char (g : SGraph) (hnp : noParallel g) :
    phase2 g =
      if g.edges.all (fun e => speedSel e ≠ 0) then
        .ok { g with edges := g.edges.map fallbackF }
      else .error () := by
  rw [phase2_eq_simple g hnp]
  unfold phase2Simple
  rw [mapFallback_eq]
  by_cases h : g.edges.all (fun e => speedSel e ≠ 0) = true
  · rw [if_pos h, if_pos h]
  · rw [Bool.not_eq_true] at h
    rw [h]
    simp

/-! ### Pointwise characterisation of the stamping writes -/

theorem sgraph_ext (a b : SGraph) (h1 : a.nodes = b.nodes) (h2 : a.edges = b.edges) :
    a = b := by
  cases a
  cases b
  cases h1
  cases h2
  rfl

theorem applyStamps_cons (g : SGraph) (wl : (ℕ × ℕ × ℕ) × ℕ)
    (ws : List ((ℕ × ℕ × ℕ) × ℕ)) :
    applyStamps g (wl :: ws) = applyStamps (setCong g wl.1 wl.2) ws := rfl

theorem stampVal_cons (wl : (ℕ × ℕ × ℕ) × ℕ) (ws : List ((ℕ × ℕ × ℕ) × ℕ))
    (t : ℕ × ℕ × ℕ) (c : Option ℕ) :
    stampVal (wl :: ws) t c = stampVal ws t (if t = wl.1 then some wl.2 else c) := rfl

theorem applyStamps_edges (ws : List ((ℕ × ℕ × ℕ) × ℕ)) :
    ∀ g : SGraph, (applyStamps g ws).edges = g.edges.map (fun e =>
      { e with data := { e.data with
          congestion := stampVal ws (e.src, e.tgt, e.key) e.data.congestion } }) := by
  induction ws with
  | nil =>
    intro g
    exact (map_eq_self_of _ _ (fun e _ => rfl)).symm
  | cons wl ws ih =>
    intro g
    rw [applyStamps_cons, ih]
    have hsc : (setCong g wl.1 wl.2).edges = g.edges.map (fun e =>
        if (e.src, e.tgt, e.key) = wl.1 then
          { e with data := { e.data with congestion := some wl.2 } }
        else e) := rfl
    rw [hsc, List.map_map]
    apply List.map_congr_left
    intro e _
    simp only [Function.comp_apply]
    by_cases hc : (e.src, e.tgt, e.key) = wl.1
    · rw [if_pos hc, stampVal_cons, if_pos hc]
    · rw [if_neg hc, stampVal_cons, if_neg hc]

theorem applyStamps_nodes (ws : List ((ℕ × ℕ × ℕ) × ℕ)) :
    ∀ g : SGraph, (applyStamps g ws).nodes = g.nodes := by
  induction ws with
  | nil => intro g; rfl
  | cons wl ws ih =>
    intro g
    rw [applyStamps_cons, ih]
    rfl

theorem skelEdges_applyStamps (g : SGraph) (ws : List ((ℕ × ℕ × ℕ) × ℕ)) :
    skelEdges (applyStamps g ws) = skelEdges g := by
  unfold skelEdges
  rw [applyStamps_edges, List.map_map]
  apply List.map_congr_left
  intro e _
  rfl

theorem skelOf_applyStamps (g : SGraph) (ws : List ((ℕ × ℕ × ℕ) × ℕ)) :
    skelOf (applyStamps g ws) = skelOf g := by
  unfold skelOf
  rw [skelEdges_applyStamps, applyStamps_nodes]

theorem stampVal_dichotomy (ws : List ((ℕ × ℕ × ℕ) × ℕ)) (t : ℕ × ℕ × ℕ) :
    (∃ l, ∀ c, stampVal ws t c = some l) ∨ (∀ c, stampVal ws t c = c) := by
  induction ws with
  | nil => exact Or.inr (fun c => rfl)
  | cons wl ws ih =>
    rcases ih with ⟨l, hl⟩ | hid
    · exact Or.inl ⟨l, fun c => by rw [stampVal_cons]; exact hl _⟩
    · by_cases hc : t = wl.1
      · exact Or.inl ⟨wl.2, fun c => by rw [stampVal_cons, if_pos hc]; exact hid _⟩
      · exact Or.inr (fun c => by rw [stampVal_cons, if_neg hc]; exact hid c)

theorem stampVal_idem (ws : List ((ℕ × ℕ × ℕ) × ℕ)) (t : ℕ × ℕ × ℕ) (c : Option ℕ) :
    stampVal ws t (some ((stampVal ws t c).getD 2)) =
      some ((stampVal ws t c).getD 2) := by
  rcases stampVal_dichotomy ws t with ⟨l, hl⟩ | hid
  · rw [hl, hl]
    rfl
  · rw [hid, hid]

theorem speedSel_fallbackF (e : IEdge) : speedSel (fallbackF e) = speedSel e := rfl

theorem fallbackF_idem (e : IEdge) : fallbackF (fallbackF e) = fallbackF e := rfl

theorem pairwise_uv_map (es : List IEdge) (f : IEdge → IEdge)
    (hsrc : ∀ e, (f e).src = e.src) (htgt : ∀ e, (f e).tgt = e.tgt)
    (h : es.Pairwise uvDistinct) : (es.map f).Pairwise uvDistinct := by
  rw [List.pairwise_map]
  refine h.imp ?_
  intro a b hab
  simp only [uvDistinct, hsrc, htgt]
  exact hab

/-! ### Provenance of the stamped congestion levels -/

theorem stampCgs_levels (s : SkelG) (nearest : ℚ → ℚ → ℕ)
    (spath : ℕ → ℕ → Option (List ℕ)) (hws : List Highway) (c : List ℚ) :
    ∀ (cgs : List Congestion) (xcur : ℕ) r,
      stampCgs s nearest spath hws c xcur cgs = .ok r →
      ∀ wl ∈ r.1, ∃ cg ∈ cgs, wl.2 = get_congestion cg := by
  intro cgs
  induction cgs with
  | nil =>
    intro xcur r h wl hwl
    cases h
    simp at hwl
  | cons cg cgs ih =>
    intro xcur r h wl hwl
    rw [stampCgs] at h
    split at h
    · cases h
    · split at h
      · dsimp only at h
        split at h
        · cases h
        · rename_i r2 hrec
          cases h
          rcases List.mem_append.1 hwl with hw1 | hw2
          · obtain ⟨w, hwm, rfl⟩ := List.mem_map.1 hw1
            exact ⟨cg, by simp, rfl⟩
          · obtain ⟨cg', hcg', he⟩ := ih _ r2 hrec wl hw2
            exact ⟨cg', by simp [hcg'], he⟩
      · obtain ⟨cg', hcg', he⟩ := ih _ r h wl hwl
        exact ⟨cg', by simp [hcg'], he⟩

theorem stampRunGo_levels (s : SkelG) (nearest : ℚ → ℚ → ℕ)
    (spath : ℕ → ℕ → Option (List ℕ)) (hws : List Highway) (cgs : List Congestion) :
    ∀ (xs : List ℕ) ws, stampRunGo s nearest spath hws cgs xs = .ok ws →
      ∀ wl ∈ ws, ∃ cg ∈ cgs, wl.2 = get_congestion cg := by
  intro xs
  induction xs with
  | nil =>
    intro ws h wl hwl
    cases h
    simp at hwl
  | cons x0 xs ih =>
    intro ws h wl hwl
    rw [stampRunGo] at h
    split at h
    · cases h
    · rename_i r hc
      split at h
      · cases h
      · rename_i ws2 hrest
        cases h
        rcases List.mem_append.1 hwl with hw1 | hw2
        · exact stampCgs_levels s nearest spath hws _ cgs x0 r hc wl hw1
        · exact ih ws2 hrest wl hw2

theorem stampRun_levels (s : SkelG) (nearest : ℚ → ℚ → ℕ)
    (spath : ℕ → ℕ → Option (List ℕ)) (hws : List Highway) (cgs : List Congestion)
    (ws : List ((ℕ × ℕ × ℕ) × ℕ)) (h : stampRun s nearest spath hws cgs = .ok ws) :
    ∀ wl ∈ ws, ∃ cg ∈ cgs, wl.2 = get_congestion cg :=
  stampRunGo_levels s nearest spath hws cgs _ ws h

theorem get_congestion_range (cg : Congestion) (hu : cg.usual ≤ 6) (ha : cg.actual ≤ 6) :
    1 ≤ get_congestion cg ∧ get_congestion cg ≤ 6 := by
  unfold get_congestion
  split_ifs <;> omega

theorem stampVal_some (ws : List ((ℕ × ℕ × ℕ) × ℕ)) (t : ℕ × ℕ × ℕ) :
    ∀ (c : Option ℕ) (l : ℕ), stampVal ws t c = some l →
      c = some l ∨ ∃ wl ∈ ws, wl.1 = t ∧ wl.2 = l := by
  induction ws with
  | nil => intro c l h; exact Or.inl h
  | cons wl ws ih =>
    intro c l h
    rw [stampVal_cons] at h
    rcases ih _ _ h with hc | ⟨wl', hm, ht, hv⟩
    · by_cases hq : t = wl.1
      · rw [if_pos hq] at hc
        exact Or.inr ⟨wl, by simp, hq.symm, Option.some.inj hc⟩
      · rw [if_neg hq] at hc
        exact Or.inl hc
    · exact Or.inr ⟨wl', by simp [hm], ht, hv⟩

theorem edge_update_cong_eq (e : IEdge) (c : Option ℕ) (h : c = e.data.congestion) :
    ({ e with data := { e.data with congestion := c } } : IEdge) = e := by
  cases e with
  | mk s t k d =>
    cases d
    cases h
    rfl

/-- C10: get_congestion never returns the no-data level 0 — on sample
pairs in 0..6 x 0..6 its result lies in 1..6 — and consequently, after
build_igraph completes on a base graph without parallel edges whose edges
carry no pre-existing congestion attribute, every edge's congestion is
either a stamped reconciled level or the default 2, lies in 1..6, and is
never 0. -/
theorem claim_C10_no_zero_congestion (nearest : ℚ → ℚ → ℕ)
    (spath : ℕ → ℕ → Option (List ℕ)) (g : SGraph) (hws : List Highway)
    (cgs : List Congestion) (gf : SGraph)
    (hvalid : ∀ cg ∈ cgs, cg.usual ≤ 6 ∧ cg.actual ≤ 6)
    (hbase : ∀ e ∈ g.edges, e.data.congestion = none)
    (hnp : noParallel g)
    (hb : build_igraph nearest spath g hws cgs = .ok gf) :
    (∀ cg ∈ cgs, 1 ≤ get_congestion cg ∧ get_congestion cg ≤ 6) ∧
    (∀ e ∈ gf.edges, ∃ c, e.data.congestion = some c ∧ 1 ≤ c ∧ c ≤ 6) := by
  refine ⟨fun cg hcg => get_congestion_range cg (hvalid cg hcg).1 (hvalid cg hcg).2, ?_⟩
  rw [build_igraph] at hb
  split at hb
  · cases hb
  · rename_i gA hph1
    rw [phase1] at hph1
    split at hph1
    · cases hph1
    · rename_i ws hsr
      cases hph1
      have hnpA : noParallel (applyStamps g ws) := by
        unfold noParallel
        rw [applyStamps_edges]
        exact pairwise_uv_map _ _ (fun e => rfl) (fun e => rfl) hnp
      rw [phase2_char _ hnpA] at hb
      by_cases hall : (applyStamps g ws).edges.all (fun e => speedSel e ≠ 0) = true
      case neg =>
        rw [Bool.not_eq_true] at hall
        rw [hall] at hb
        simp at hb
      rw [if_pos hall] at hb
      have hedges : gf.edges = (applyStamps g ws).edges.map fallbackF := by
        cases hb
        rfl
      intro e he
      rw [hedges, applyStamps_edges, List.map_map] at he
      obtain ⟨e0, he0, rfl⟩ := List.mem_map.1 he
      have hc0 : e0.data.congestion = none := hbase e0 he0
      refine ⟨(stampVal ws (e0.src, e0.tgt, e0.key) e0.data.congestion).getD 2, rfl, ?_⟩
      rw [hc0]
      cases hv : stampVal ws (e0.src, e0.tgt, e0.key) none with
      | none => simp
      | some l =>
        rcases stampVal_some ws _ _ _ hv with hcl | ⟨wl, hm, _, hvl⟩
        · cases hcl
        · obtain ⟨cg, hcg, hlv⟩ := stampRun_levels _ nearest spath hws cgs ws hsr wl hm
          have := get_congestion_range cg (hvalid cg hcg).1 (hvalid cg hcg).2
          simp only [Option.getD_some]
          omega

/-- Witness for C10 on the chain fixture: the build stamps level 4 on the
first edge, defaults the second to 2, and both lie in 1..6. -/
theorem claim_C10_no_zero_congestion_witness :
    (∀ cg ∈ c1Congestions, 1 ≤ get_congestion cg ∧ get_congestion cg ≤ 6) ∧
    (∀ e ∈ c1Built.edges, ∃ c, e.data.congestion = some c ∧ 1 ≤ c ∧ c ≤ 6) := by
  have h1 : phase1 c1Nearest c1Spath c1Graph c1Highways c1Congestions = .ok c1Stamped := by
    decide
  have h2 : phase2 c1Stamped = .ok c1Built := by
    norm_num [phase2, phase2Outer, phase2Keys, adjKeys, skelEdges, lookupEdge,
      updKeyD, replaceEdge, speedOf, c1Stamped, c1Built, List.find?]
  have hb : build_igraph c1Nearest c1Spath c1Graph c1Highways c1Congestions =
      .ok c1Built := by
    rw [build_igraph, h1]
    exact h2
  exact claim_C10_no_zero_congestion c1Nearest c1Spath c1Graph c1Highways
    c1Congestions c1Built (by decide) (by decide) (by decide) hb

/-- C7: rebuilding is idempotent.  If build_igraph succeeds on a
parallel-edge-free base graph, running it again on the resulting graph
with the same highways and congestions succeeds and yields identical
per-edge congestion and itime values (in fact the identical graph): the
stamping decisions read only the structural skeleton, which the first
build preserves, and re-applying the same writes and the same
fallback-and-weighting computations fixes every attribute. -/
theorem claim_C7_idempotent (nearest : ℚ → ℚ → ℕ) (spath : ℕ → ℕ → Option (List ℕ))
    (g : SGraph) (hws : List Highway) (cgs : List Congestion) (g1 : SGraph)
    (hnp : noParallel g)
    (h : build_igraph nearest spath g hws cgs = .ok g1) :
    ∃ g2, build_igraph nearest spath g1 hws cgs = .ok g2 ∧
      g2.edges.map (fun e => (e.data.congestion, e.data.itime)) =
        g1.edges.map (fun e => (e.data.congestion, e.data.itime)) := by
  rw [build_igraph] at h
  split at h
  · cases h
  · rename_i gA hph1
    rw [phase1] at hph1
    split at hph1
    · cases hph1
    · rename_i ws hsr
      cases hph1
      have hnpA : noParallel (applyStamps g ws) := by
        unfold noParallel
        rw [applyStamps_edges]
        exact pairwise_uv_map _ _ (fun e => rfl) (fun e => rfl) hnp
      rw [phase2_char _ hnpA] at h
      by_cases hall : (applyStamps g ws).edges.all (fun e => speedSel e ≠ 0) = true
      case neg =>
        rw [Bool.not_eq_true] at hall
        rw [hall] at h
        simp at h
      rw [if_pos hall] at h
      have hg1 : g1 = { applyStamps g ws with
          edges := (applyStamps g ws).edges.map fallbackF } := by
        cases h
        rfl
      have hnodes1 : g1.nodes = g.nodes := by
        rw [hg1]
        exact applyStamps_nodes ws g
      have hskel1 : skelEdges g1 = skelEdges g := by
        rw [hg1]
        show ((applyStamps g ws).edges.map fallbackF).map (fun e => (e.src, e.tgt, e.key)) =
          skelEdges g
        rw [List.map_map]
        have h1 : (applyStamps g ws).edges.map
            ((fun e : IEdge => (e.src, e.tgt, e.key)) ∘ fallbackF) =
            (applyStamps g ws).edges.map (fun e => (e.src, e.tgt, e.key)) :=
          List.map_congr_left (fun e _ => rfl)
        rw [h1]
        exact skelEdges_applyStamps g ws
      have hskelOf : skelOf g1 = skelOf g := by
        unfold skelOf
        rw [hskel1, hnodes1]
      have hph1' : phase1 nearest spath g1 hws cgs = .ok (applyStamps g1 ws) := by
        rw [phase1, hskelOf, hsr]
      have happ : applyStamps g1 ws = g1 := by
        apply sgraph_ext
        · exact applyStamps_nodes ws g1
        · rw [applyStamps_edges]
          apply map_eq_self_of
          intro e1 he1
          rw [hg1, applyStamps_edges, List.map_map] at he1
          obtain ⟨e0, he0, rfl⟩ := List.mem_map.1 he1
          apply edge_update_cong_eq
          exact stampVal_idem ws (e0.src, e0.tgt, e0.key) e0.data.congestion
      rw [happ] at hph1'
      have hnp1 : noParallel g1 := by
        unfold noParallel
        rw [hg1]
        exact pairwise_uv_map _ fallbackF (fun e => rfl) (fun e => rfl) hnpA
      have hall1 : g1.edges.all (fun e => speedSel e ≠ 0) = true := by
        rw [hg1]
        show ((applyStamps g ws).edges.map fallbackF).all
          (fun e => decide (speedSel e ≠ 0)) = true
        rw [List.all_map]
        have h1 : ((fun e : IEdge => decide (speedSel e ≠ 0)) ∘ fallbackF) =
            (fun e : IEdge => decide (speedSel e ≠ 0)) :=
          funext (fun e => by rw [Function.comp_apply, speedSel_fallbackF])
        rw [h1]
        exact hall
      have hmapf : g1.edges.map fallbackF = g1.edges := by
        apply map_eq_self_of
        intro e1 he1
        rw [hg1] at he1
        obtain ⟨eA, heA, rfl⟩ := List.mem_map.1 he1
        exact fallbackF_idem eA
      have hph2' : phase2 g1 = .ok g1 := by
        rw [phase2_char _ hnp1, if_pos hall1, hmapf]
      refine ⟨g1, ?_, rfl⟩
      rw [build_igraph, hph1']
      exact hph2'

/-! ### Walk lemmas for the route planner -/

theorem isWalk_head {g : SGraph} {o d : ℕ} {p : List ℕ} (h : isWalk g o d p) :
    p.head? = some o := h.2.1

theorem isWalk_shape {g : SGraph} {o d : ℕ} {p : List ℕ} (h : isWalk g o d p) :
    ∃ t, p = o :: t := by
  cases p with
  | nil => exact absurd rfl h.1
  | cons x t =>
    have hh := isWalk_head h
    simp only [List.head?_cons, Option.some.injEq] at hh
    exact ⟨t, by rw [hh]⟩

theorem isWalk_singleton (g : SGraph) (o : ℕ) : isWalk g o o [o] := by
  refine ⟨by simp, rfl, rfl, ?_⟩
  simp

theorem isWalk_cons_of {g : SGraph} {o d b : ℕ} {t : List ℕ}
    (harc : hasArc g o b = true) (h : isWalk g b d (b :: t)) :
    isWalk g o d (o :: b :: t) := by
  obtain ⟨_, hh, hl, hc⟩ := h
  refine ⟨by simp, rfl, ?_, ?_⟩
  · rw [List.getLast?_cons_cons]
    exact hl
  · rw [List.chain'_cons]
    exact ⟨harc, hc⟩

theorem isWalk_cons_elim {g : SGraph} {o d a b : ℕ} {t : List ℕ}
    (h : isWalk g o d (a :: b :: t)) :
    a = o ∧ hasArc g a b = true ∧ isWalk g b d (b :: t) := by
  obtain ⟨_, hh, hl, hc⟩ := h
  rw [List.chain'_cons] at hc
  rw [List.getLast?_cons_cons] at hl
  exact ⟨by simpa using hh, hc.1, ⟨by simp, rfl, hl, hc.2⟩⟩

theorem isWalk_split {g : SGraph} {d v : ℕ} {ys : List ℕ} :
    ∀ (xs : List ℕ) (o : ℕ), isWalk g o d (xs ++ v :: ys) →
      isWalk g o v (xs ++ [v]) ∧ isWalk g v d (v :: ys) := by
  intro xs
  induction xs with
  | nil =>
    intro o h
    have ho : v = o := by simpa using isWalk_head h
    subst ho
    exact ⟨isWalk_singleton g v, h⟩
  | cons a xs ih =>
    intro o h
    cases xs with
    | nil =>
      obtain ⟨rfl, harc, hw⟩ := isWalk_cons_elim h
      exact ⟨isWalk_cons_of harc (isWalk_singleton g v), hw⟩
    | cons c xs' =>
      obtain ⟨rfl, harc, hw⟩ := isWalk_cons_elim h
      obtain ⟨h1, h2⟩ := ih c hw
      exact ⟨isWalk_cons_of harc h1, h2⟩

theorem isWalk_join {g : SGraph} {d v : ℕ} {ys : List ℕ} :
    ∀ (xs : List ℕ) (o : ℕ), isWalk g o v (xs ++ [v]) → isWalk g v d (v :: ys) →
      isWalk g o d (xs ++ v :: ys) := by
  intro xs
  induction xs with
  | nil =>
    intro o h1 h2
    have ho : v = o := by simpa using isWalk_head h1
    subst ho
    exact h2
  | cons a xs ih =>
    intro o h1 h2
    cases xs with
    | nil =>
      obtain ⟨rfl, harc, _⟩ := isWalk_cons_elim h1
      exact isWalk_cons_of harc h2
    | cons c xs' =>
      obtain ⟨rfl, harc, hw⟩ := isWalk_cons_elim h1
      exact isWalk_cons_of harc (ih c hw h2)

theorem walkCost_cons (g : SGraph) (a b : ℕ) (t : List ℕ) :
    walkCost g (a :: b :: t) = arcW g a b + walkCost g (b :: t) := rfl

theorem walkCost_append (g : SGraph) (v : ℕ) (ys : List ℕ) :
    ∀ xs, walkCost g (xs ++ v :: ys) = walkCost g (xs ++ [v]) + walkCost g (v :: ys) := by
  intro xs
  induction xs with
  | nil =>
    show walkCost g (v :: ys) = walkCost g [v] + walkCost g (v :: ys)
    rw [show walkCost g [v] = 0 from rfl]
    ring
  | cons a xs ih =>
    cases xs with
    | nil =>
      show walkCost g (a :: v :: ys) = walkCost g (a :: [v]) + walkCost g (v :: ys)
      rw [walkCost_cons, walkCost_cons, show walkCost g [v] = 0 from rfl]
      ring
    | cons c xs' =>
      show walkCost g (a :: c :: (xs' ++ v :: ys)) =
        walkCost g (a :: c :: (xs' ++ [v])) + walkCost g (v :: ys)
      rw [walkCost_cons, walkCost_cons,
        show walkCost g (c :: (xs' ++ v :: ys)) =
          walkCost g ((c :: xs') ++ v :: ys) from rfl, ih,
        show walkCost g ((c :: xs') ++ [v]) = walkCost g (c :: (xs' ++ [v])) from rfl]
      ring

theorem foldl_min_nonneg :
    ∀ (l : List ℚ) (w : ℚ), 0 ≤ w → (∀ x ∈ l, 0 ≤ x) → 0 ≤ l.foldl min w := by
  intro l
  induction l with
  | nil => intro w hw _; exact hw
  | cons x l ih =>
    intro w hw hl
    exact ih (min w x) (le_min hw (hl x (by simp))) (fun y hy => hl y (by simp [hy]))

theorem arcW_nonneg (g : SGraph) (hnn : ∀ e ∈ g.edges, 0 ≤ e.data.itime.getD 1)
    (a b : ℕ) : 0 ≤ arcW g a b := by
  unfold arcW
  split
  · exact le_refl 0
  next w ws heq =>
    have hall : ∀ x ∈ w :: ws, (0 : ℚ) ≤ x := by
      rw [← heq]
      intro x hx
      obtain ⟨e, he, rfl⟩ := List.mem_map.1 hx
      exact hnn e (List.mem_of_mem_filter he)
    exact foldl_min_nonneg ws w (hall w (by simp)) (fun x hx => hall x (by simp [hx]))

theorem walkCost_nonneg (g : SGraph) (hnn : ∀ e ∈ g.edges, 0 ≤ e.data.itime.getD 1) :
    ∀ p, 0 ≤ walkCost g p := by
  intro p
  induction p with
  | nil => exact le_refl 0
  | cons a t ih =>
    cases t with
    | nil => exact le_refl 0
    | cons b t' =>
      rw [walkCost_cons]
      exact add_nonneg (arcW_nonneg g hnn a b) ih

theorem exists_dup_split :
    ∀ (p : List ℕ), ¬ p.Nodup → ∃ v l1 l2 l3, p = l1 ++ v :: (l2 ++ v :: l3) := by
  intro p
  induction p with
  | nil => intro h; exact absurd List.nodup_nil h
  | cons a t ih =>
    intro h
    by_cases ha : a ∈ t
    · obtain ⟨s, u, rfl⟩ := List.append_of_mem ha
      exact ⟨a, [], s, u, rfl⟩
    · have hnt : ¬ t.Nodup := fun hn => h (List.nodup_cons.2 ⟨ha, hn⟩)
      obtain ⟨v, l1, l2, l3, rfl⟩ := ih hnt
      exact ⟨v, a :: l1, l2, l3, rfl⟩

theorem exists_simple_walk (g : SGraph)
    (hnn : ∀ e ∈ g.edges, 0 ≤ e.data.itime.getD 1) (o d : ℕ) :
    ∀ (n : ℕ) (p : List ℕ), p.length ≤ n → isWalk g o d p →
      ∃ q, isWalk g o d q ∧ q.Nodup ∧ walkCost g q ≤ walkCost g p ∧
        q.length ≤ p.length := by
  intro n
  induction n with
  | zero =>
    intro p hl hp
    have hnil : p = [] := List.length_eq_zero.1 (Nat.le_zero.1 hl)
    rw [hnil] at hp
    exact absurd rfl hp.1
  | succ n ih =>
    intro p hl hp
    by_cases hd : p.Nodup
    · exact ⟨p, hp, hd, le_refl _, le_refl _⟩
    · obtain ⟨v, l1, l2, l3, rfl⟩ := exists_dup_split p hd
      obtain ⟨h1, h2⟩ := isWalk_split l1 o hp
      obtain ⟨h3, h4⟩ := isWalk_split (v :: l2) v h2
      have hq0 : isWalk g o d (l1 ++ v :: l3) := isWalk_join l1 o h1 h4
      have hmid : 0 ≤ walkCost g ((v :: l2) ++ [v]) := walkCost_nonneg g hnn _
      have hcost : walkCost g (l1 ++ v :: l3) ≤
          walkCost g (l1 ++ v :: (l2 ++ v :: l3)) := by
        rw [walkCost_append g v l3 l1, walkCost_append g v (l2 ++ v :: l3) l1,
          show walkCost g (v :: (l2 ++ v :: l3)) =
            walkCost g ((v :: l2) ++ v :: l3) from rfl,
          walkCost_append g v l3 (v :: l2)]
        linarith
      have hlen0 : (l1 ++ v :: l3).length ≤ n := by
        simp only [List.length_append, List.length_cons] at hl ⊢
        omega
      obtain ⟨q, hq, hnd, hc, hlq⟩ := ih _ hlen0 hq0
      refine ⟨q, hq, hnd, le_trans hc hcost, ?_⟩
      refine le_trans hlq ?_
      simp only [List.length_append, List.length_cons]
      omega

theorem mem_succs (g : SGraph) (a b : ℕ) : b ∈ succs g a ↔ hasArc g a b = true := by
  unfold succs hasArc
  rw [List.mem_dedup, List.mem_map, List.any_eq_true]
  constructor
  · rintro ⟨e, he, rfl⟩
    have hf := List.mem_filter.1 he
    simp only [decide_eq_true_eq] at hf
    exact ⟨e, hf.1, by simp [hf.2]⟩
  · rintro ⟨e, he, hd⟩
    simp only [decide_eq_true_eq] at hd
    exact ⟨e, List.mem_filter.2 ⟨he, by simp [hd.1]⟩, hd.2⟩

theorem walk_mem_nodes (g : SGraph)
    (hwf : ∀ e ∈ g.edges, e.src ∈ g.nodes ∧ e.tgt ∈ g.nodes) :
    ∀ (p : List ℕ) (o d : ℕ), o ∈ g.nodes → isWalk g o d p → ∀ x ∈ p, x ∈ g.nodes := by
  intro p
  induction p with
  | nil => intro o d ho hp x hx; simp at hx
  | cons a t ih =>
    intro o d ho hp x hx
    cases t with
    | nil =>
      have ha : a = o := by simpa using isWalk_head hp
      simp only [List.mem_singleton] at hx
      rw [hx, ha]
      exact ho
    | cons b t' =>
      obtain ⟨rfl, harc, hw⟩ := isWalk_cons_elim hp
      have hb : b ∈ g.nodes := by
        rw [hasArc, List.any_eq_true] at harc
        obtain ⟨e, he, hpred⟩ := harc
        simp only [decide_eq_true_eq] at hpred
        rw [← hpred.2]
        exact (hwf e he).2
      rcases List.mem_cons.1 hx with rfl | hx'
      · exact ho
      · exact ih b d hb hw x hx'

theorem nodup_length_le (p l : List ℕ) (hnd : p.Nodup) (hsub : ∀ x ∈ p, x ∈ l) :
    p.length ≤ l.length :=
  calc p.length = p.toFinset.card := (List.toFinset_card_of_nodup hnd).symm
    _ ≤ l.toFinset.card := Finset.card_le_card (fun x hx =>
        List.mem_toFinset.2 (hsub x (List.mem_toFinset.1 hx)))
    _ ≤ l.length := l.toFinset_card_le

theorem spAux_sound (g : SGraph) (d : ℕ) :
    ∀ (fuel : ℕ) (visited : List ℕ) (cur : ℕ) (p : List ℕ),
      p ∈ spAux g d fuel visited cur → isWalk g cur d p := by
  intro fuel
  induction fuel with
  | zero =>
    intro visited cur p hp
    rw [spAux] at hp
    by_cases hc : cur = d
    · rw [if_pos hc] at hp
      simp only [List.mem_singleton] at hp
      subst hc
      rw [hp]
      exact isWalk_singleton g cur
    · rw [if_neg hc] at hp
      simp at hp
  | succ f ih =>
    intro visited cur p hp
    rw [spAux] at hp
    by_cases hc : cur = d
    · rw [if_pos hc] at hp
      simp only [List.mem_singleton] at hp
      subst hc
      rw [hp]
      exact isWalk_singleton g cur
    · rw [if_neg hc] at hp
      rw [List.mem_flatMap] at hp
      obtain ⟨n, hn, hpm⟩ := hp
      rw [List.mem_map] at hpm
      obtain ⟨p', hp', rfl⟩ := hpm
      have hwalk := ih (cur :: visited) n p' hp'
      have harc : hasArc g cur n = true :=
        (mem_succs g cur n).1 (List.mem_filter.1 hn).1
      obtain ⟨t, rfl⟩ := isWalk_shape hwalk
      exact isWalk_cons_of harc hwalk

theorem spAux_complete (g : SGraph) (d : ℕ) :
    ∀ (p : List ℕ) (fuel : ℕ) (visited : List ℕ) (cur : ℕ),
      isWalk g cur d p → p.Nodup → (∀ x ∈ p, x ∉ visited) →
      p.length ≤ fuel + 1 → p ∈ spAux g d fuel visited cur := by
  intro p
  induction p with
  | nil =>
    intro fuel visited cur hw
    exact absurd rfl hw.1
  | cons a t ih =>
    intro fuel visited cur hw hnd hdis hlen
    have h1 : a = cur := by simpa using isWalk_head hw
    subst h1
    cases t with
    | nil =>
      have had : a = d := by simpa using hw.2.2.1
      rw [spAux.eq_def]
      dsimp only
      rw [if_pos had]
      simp [had]
    | cons b t' =>
      have hnod : a ∉ b :: t' := (List.nodup_cons.1 hnd).1
      have hlast : (b :: t').getLast? = some d := by
        have hl2 := hw.2.2.1
        rwa [List.getLast?_cons_cons] at hl2
      have hdmem : d ∈ b :: t' := by
        have hg := List.getLast?_eq_getLast (b :: t') (by simp)
        rw [hg] at hlast
        have hmem := @List.getLast_mem ℕ (b :: t') (by simp)
        rwa [Option.some.inj hlast] at hmem
      have hcd : a ≠ d := fun hh => hnod (hh ▸ hdmem)
      rw [spAux.eq_def]
      dsimp only
      rw [if_neg hcd]
      cases fuel with
      | zero =>
        simp only [List.length_cons] at hlen
        omega
      | succ f =>
        rw [List.mem_flatMap]
        obtain ⟨-, harc, hwt⟩ := isWalk_cons_elim hw
        have hba : b ≠ a := fun hh => hnod (by rw [hh]; simp)
        have hbv : b ∉ visited := hdis b (by simp)
        refine ⟨b, ?_, ?_⟩
        · rw [List.mem_filter]
          refine ⟨(mem_succs g a b).2 harc, ?_⟩
          simp [hba, hbv]
        · rw [List.mem_map]
          refine ⟨b :: t', ?_, rfl⟩
          apply ih f (a :: visited) b hwt (List.nodup_cons.1 hnd).2
          · intro x hx
            simp only [List.mem_cons, not_or]
            exact ⟨fun hxa => hnod (hxa ▸ hx), hdis x (by simp [hx])⟩
          · simp only [List.length_cons] at hlen ⊢
            omega

theorem pickMin_cons_some (g : SGraph) (p : List ℕ) (ps : List (List ℕ)) :
    ∃ q, pickMin g (p :: ps) = some q := by
  cases hm : pickMin g ps with
  | none => exact ⟨p, by rw [pickMin, hm]⟩
  | some q =>
    by_cases h : walkCost g q < walkCost g p
    · refine ⟨q, ?_⟩
      rw [pickMin, hm]
      show (if walkCost g q < walkCost g p then some q else some p) = some q
      rw [if_pos h]
    · refine ⟨p, ?_⟩
      rw [pickMin, hm]
      show (if walkCost g q < walkCost g p then some q else some p) = some p
      rw [if_neg h]

theorem pickMin_spec (g : SGraph) :
    ∀ (l : List (List ℕ)) (q : List ℕ), pickMin g l = some q →
      q ∈ l ∧ ∀ r ∈ l, walkCost g q ≤ walkCost g r := by
  intro l
  induction l with
  | nil => intro q h; cases h
  | cons p ps ih =>
    intro q h
    rw [pickMin] at h
    cases hm : pickMin g ps with
    | none =>
      rw [hm] at h
      cases ps with
      | nil =>
        cases h
        refine ⟨by simp, ?_⟩
        intro r hr
        simp only [List.mem_singleton] at hr
        rw [hr]
      | cons p2 ps2 =>
        obtain ⟨q2, hq2⟩ := pickMin_cons_some g p2 ps2
        rw [hq2] at hm
        cases hm
    | some qmin =>
      rw [hm] at h
      replace h : (if walkCost g qmin < walkCost g p then some qmin else some p) =
          some q := h
      obtain ⟨hmem, hmin⟩ := ih qmin hm
      by_cases hlt : walkCost g qmin < walkCost g p
      · rw [if_pos hlt] at h
        cases h
        refine ⟨by simp [hmem], ?_⟩
        intro r hr
        rcases List.mem_cons.1 hr with rfl | hr'
        · exact le_of_lt hlt
        · exact hmin r hr'
      · rw [if_neg hlt] at h
        cases h
        push_neg at hlt
        refine ⟨by simp, ?_⟩
        intro r hr
        rcases List.mem_cons.1 hr with rfl | hr'
        · exact le_refl _
        · exact le_trans hlt (hmin r hr')

/-- C4: for resolved query endpoints snapped to nodes of the published
weighted graph (endpoint resolution and snapping being external
collaborators), the planner fails — osmnx returns None, surfaced as
NoRouteFound to the caller — exactly when the snapped nodes are not
connected, and otherwise returns an ordered node sequence that is a walk
from origin to destination of minimal cumulative itime among all such
walks.  Hypotheses: the graph's edge endpoints are nodes and the itime
weights (with the networkx default 1 for a missing attribute) are
nonnegative. -/
theorem claim_C4_route_planner (igraph : SGraph) (geocode : String → ℚ × ℚ)
    (nearest : SGraph → ℚ → ℚ → ℕ) (locA locB : String) (o d : ℕ)
    (hwf : ∀ e ∈ igraph.edges, e.src ∈ igraph.nodes ∧ e.tgt ∈ igraph.nodes)
    (hnn : ∀ e ∈ igraph.edges, 0 ≤ e.data.itime.getD 1)
    (hoe : o = nearest igraph (geocode locA).2 (geocode locA).1)
    (hde : d = nearest igraph (geocode locB).2 (geocode locB).1)
    (ho : o ∈ igraph.nodes) (hd : d ∈ igraph.nodes) :
    (¬ Connected igraph o d →
      get_shortest_path_with_ispeeds igraph geocode nearest locA locB = none) ∧
    (Connected igraph o d →
      ∃ p, get_shortest_path_with_ispeeds igraph geocode nearest locA locB = some p ∧
        isWalk igraph o d p ∧
        ∀ q, isWalk igraph o d q → walkCost igraph p ≤ walkCost igraph q) := by
  have hun : get_shortest_path_with_ispeeds igraph geocode nearest locA locB =
      shortestPathModel igraph o d := by
    rw [hoe, hde]
    rfl
  rw [hun, shortestPathModel, if_pos ⟨ho, hd⟩]
  constructor
  · intro hnc
    cases hm : pickMin igraph (spAux igraph d igraph.nodes.length [] o) with
    | none => rfl
    | some p =>
      obtain ⟨hmem, -⟩ := pickMin_spec igraph _ p hm
      exact absurd ⟨p, spAux_sound igraph d _ _ _ p hmem⟩ hnc
  · rintro ⟨p0, hp0⟩
    obtain ⟨q, hq, hnd, -, -⟩ :=
      exists_simple_walk igraph hnn o d p0.length p0 (le_refl _) hp0
    have hqmem : q ∈ spAux igraph d igraph.nodes.length [] o := by
      apply spAux_complete igraph d q igraph.nodes.length [] o hq hnd (by simp)
      have hsub : ∀ x ∈ q, x ∈ igraph.nodes := walk_mem_nodes igraph hwf q o d ho hq
      have := nodup_length_le q igraph.nodes hnd hsub
      omega
    cases hm : pickMin igraph (spAux igraph d igraph.nodes.length [] o) with
    | none =>
      cases hlist : spAux igraph d igraph.nodes.length [] o with
      | nil =>
        rw [hlist] at hqmem
        simp at hqmem
      | cons r rs =>
        obtain ⟨s, hs⟩ := pickMin_cons_some igraph r rs
        rw [hlist, hs] at hm
        cases hm
    | some p =>
      obtain ⟨hpm, hmin⟩ := pickMin_spec igraph _ p hm
      refine ⟨p, rfl, spAux_sound igraph d _ _ _ p hpm, ?_⟩
      intro r hr
      obtain ⟨r', hr', hnd', hcr', -⟩ :=
        exists_simple_walk igraph hnn o d r.length r (le_refl _) hr
      have hr'mem : r' ∈ spAux igraph d igraph.nodes.length [] o := by
        apply spAux_complete igraph d r' igraph.nodes.length [] o hr' hnd' (by simp)
        have hsub : ∀ x ∈ r', x ∈ igraph.nodes :=
          walk_mem_nodes igraph hwf r' o d ho hr'
        have := nodup_length_le r' igraph.nodes hnd' hsub
        omega
      exact le_trans (hmin r' hr'mem) hcr'

/-- Witness for C4 on a one-edge graph: the endpoints resolve to nodes 0
and 1. -/
theorem claim_C4_route_planner_witness :
    (¬ Connected c4Graph 0 1 →
      get_shortest_path_with_ispeeds c4Graph c4Geocode c4Nearest "A" "B" = none) ∧
    (Connected c4Graph 0 1 →
      ∃ p, get_shortest_path_with_ispeeds c4Graph c4Geocode c4Nearest "A" "B" = some p ∧
        isWalk c4Graph 0 1 p ∧
        ∀ q, isWalk c4Graph 0 1 q → walkCost c4Graph p ≤ walkCost c4Graph q) :=
  claim_C4_route_planner c4Graph c4Geocode c4Nearest "A" "B" 0 1
    (by decide) (by decide) (by decide) (by decide) (by decide) (by decide)

/-- Witness for C7 on the chain fixture: rebuilding the already-built
graph reproduces its congestion and itime values. -/
theorem claim_C7_idempotent_witness :
    ∃ g2, build_igraph c1Nearest c1Spath c1Built c1Highways c1Congestions = .ok g2 ∧
      g2.edges.map (fun e => (e.data.congestion, e.data.itime)) =
        c1Built.edges.map (fun e => (e.data.congestion, e.data.itime)) := by
  have h1 : phase1 c1Nearest c1Spath c1Graph c1Highways c1Congestions = .ok c1Stamped := by
    decide
  have h2 : phase2 c1Stamped = .ok c1Built := by
    norm_num [phase2, phase2Outer, phase2Keys, adjKeys, skelEdges, lookupEdge,
      updKeyD, replaceEdge, speedOf, c1Stamped, c1Built, List.find?]
  have hb : build_igraph c1Nearest c1Spath c1Graph c1Highways c1Congestions =
      .ok c1Built := by
    rw [build_igraph, h1]
    exact h2
  exact claim_C7_idempotent c1Nearest c1Spath c1Graph c1Highways c1Congestions
    c1Built (by decide) hb

/-- C2: for every pair (usual, actual) in 0..6 x 0..6, get_congestion —
a total, deterministic Lean function with no effects — returns a level in
0..6; it returns 2 when both readings are 0, returns the actual reading
when it is nonzero and differs from the usual one, and returns the usual
reading in every other case. -/
theorem claim_C2_reconcile (w : ℕ) (dt : String) (u a : ℕ) (hu : u ≤ 6) (ha : a ≤ 6) :
    get_congestion ⟨w, dt, u, a⟩ ≤ 6 ∧
    (u = 0 ∧ a = 0 → get_congestion ⟨w, dt, u, a⟩ = 2) ∧
    (a ≠ 0 → a ≠ u → get_congestion ⟨w, dt, u, a⟩ = a) ∧
    (¬(u = 0 ∧ a = 0) → a = 0 ∨ a = u → get_congestion ⟨w, dt, u, a⟩ = u) := by
  unfold get_congestion
  dsimp only
  split_ifs with h1 h2 <;> omega

/-- Witness for C2 at the concrete pairs (0,0), (2,4) and (3,0). -/
theorem claim_C2_reconcile_witness :
    (get_congestion ⟨1, "", 0, 0⟩ ≤ 6 ∧
     (0 = 0 ∧ 0 = 0 → get_congestion ⟨1, "", 0, 0⟩ = 2) ∧
     (0 ≠ 0 → 0 ≠ 0 → get_congestion ⟨1, "", 0, 0⟩ = 0) ∧
     (¬(0 = 0 ∧ 0 = 0) → 0 = 0 ∨ 0 = 0 → get_congestion ⟨1, "", 0, 0⟩ = 0)) ∧
    (get_congestion ⟨1, "", 2, 4⟩ ≤ 6 ∧
     (2 = 0 ∧ 4 = 0 → get_congestion ⟨1, "", 2, 4⟩ = 2) ∧
     (4 ≠ 0 → 4 ≠ 2 → get_congestion ⟨1, "", 2, 4⟩ = 4) ∧
     (¬(2 = 0 ∧ 4 = 0) → 4 = 0 ∨ 4 = 2 → get_congestion ⟨1, "", 2, 4⟩ = 2)) ∧
    (get_congestion ⟨1, "", 3, 0⟩ ≤ 6 ∧
     (3 = 0 ∧ 0 = 0 → get_congestion ⟨1, "", 3, 0⟩ = 2) ∧
     (0 ≠ 0 → 0 ≠ 3 → get_congestion ⟨1, "", 3, 0⟩ = 0) ∧
     (¬(3 = 0 ∧ 0 = 0) → 0 = 0 ∨ 0 = 3 → get_congestion ⟨1, "", 3, 0⟩ = 3)) :=
  ⟨claim_C2_reconcile 1 "" 0 0 (by decide) (by decide),
   claim_C2_reconcile 1 "" 2 4 (by decide) (by decide),
   claim_C2_reconcile 1 "" 3 0 (by decide) (by decide)⟩

/-- C3: after the fallback-and-weighting pass completes on a graph without
parallel edges (the only kind this program builds, via get_digraph) whose
stamped congestion levels are at most 6: every edge with no stamped
congestion ends with congestion 2; every edge with no maxspeed ends with
maxspeed 30; an edge carrying two maxspeed values is weighted with the
free-flow value when its final congestion is at most 2 and with the
congested value otherwise; every edge's final congestion lies in 0..6; and
whenever the selected speed is positive, itime = length * congestion /
speed exactly. -/
theorem claim_C3_fallback_pass (g g' : SGraph) (hnp : noParallel g)
    (hc : ∀ e ∈ g.edges, ∀ c, e.data.congestion = some c → c ≤ 6)
    (h : phase2 g = .ok g') :
    ∀ (i : ℕ) (e e' : IEdge), g.edges[i]? = some e → g'.edges[i]? = some e' →
      (e.data.congestion = none → e'.data.congestion = some 2) ∧
      (e.data.maxspeed = none → e'.data.maxspeed = some (.one 30)) ∧
      (∃ c, e'.data.congestion = some c ∧ c ≤ 6) ∧
      (∀ (a b : ℚ) (c : ℕ), e.data.maxspeed = some (.two a b) → e'.data.congestion = some c →
        e'.data.itime = some (e.data.length * (c : ℚ) / (if c ≤ 2 then a else b))) ∧
      (∀ (c : ℕ), e'.data.congestion = some c → 0 < speedSel e →
        e'.data.itime = some (e.data.length * (c : ℚ) / speedSel e)) := by
  rw [phase2_char g hnp] at h
  by_cases hall : g.edges.all (fun e => speedSel e ≠ 0) = true
  case neg =>
    rw [Bool.not_eq_true] at hall
    rw [hall] at h
    simp at h
  rw [if_pos hall] at h
  have hg' : g'.edges = g.edges.map fallbackF := by
    cases h
    rfl
  intro i e e' he he'
  rw [hg', List.getElem?_map, he, Option.map_some'] at he'
  have hee : e' = fallbackF e := (Option.some.inj he').symm
  subst hee
  have hmem : e ∈ g.edges := List.getElem?_mem he
  refine ⟨?_, ?_, ?_, ?_, ?_⟩
  · intro hcg
    simp [fallbackF, hcg]
  · intro hms
    simp [fallbackF, hms]
  · cases hcg : e.data.congestion with
    | none => exact ⟨2, by simp [fallbackF, hcg], by norm_num⟩
    | some c0 => exact ⟨c0, by simp [fallbackF, hcg], hc e hmem c0 hcg⟩
  · intro a b c hms hcg'
    have hcc : e.data.congestion.getD 2 = c := by
      simpa [fallbackF] using hcg'
    simp [fallbackF, hms, speedOf, hcc]
  · intro c hcg' hs
    have hcc : e.data.congestion.getD 2 = c := by
      simpa [fallbackF] using hcg'
    simp only [fallbackF, speedSel, hcc]

/-- Witness for C3: a concrete three-edge graph exercising the default
congestion, the default maxspeed, and the two-valued maxspeed rule on
both sides of the threshold. -/
theorem claim_C3_fallback_pass_witness :
    ∃ g', phase2 c3Graph = .ok g' ∧
      ∀ (i : ℕ) (e e' : IEdge), c3Graph.edges[i]? = some e → g'.edges[i]? = some e' →
        (e.data.congestion = none → e'.data.congestion = some 2) ∧
        (e.data.maxspeed = none → e'.data.maxspeed = some (.one 30)) ∧
        (∃ c, e'.data.congestion = some c ∧ c ≤ 6) ∧
        (∀ (a b : ℚ) (c : ℕ), e.data.maxspeed = some (.two a b) → e'.data.congestion = some c →
          e'.data.itime = some (e.data.length * (c : ℚ) / (if c ≤ 2 then a else b))) ∧
        (∀ (c : ℕ), e'.data.congestion = some c → 0 < speedSel e →
          e'.data.itime = some (e.data.length * (c : ℚ) / speedSel e)) := by
  have hev : phase2 c3Graph = .ok c3Built := by
    norm_num [phase2, phase2Outer, phase2Keys, adjKeys, skelEdges, lookupEdge,
      updKeyD, replaceEdge, speedOf, c3Graph, c3Built, List.find?]
  exact ⟨c3Built, hev,
    claim_C3_fallback_pass c3Graph c3Built (by decide) (by decide) hev⟩

/-- C8 counterexample: with the two-valued maxspeed [10, 100] (congested
value larger than the free-flow value — nothing in the code or data
format forbids this) on an edge of length 30, raising the stamped
congestion level from 2 to 3 moves the division from speed 10 to speed
100 and DECREASES itime from 6 to 9/10, refuting the claim as stated. -/
theorem claim_C8_counterexample :
    (updKeyD 30 ⟨30, some (.two 10 100), some 2, none⟩).map IEdgeData.itime =
      .ok (some 6) ∧
    (updKeyD 30 ⟨30, some (.two 10 100), some 3, none⟩).map IEdgeData.itime =
      .ok (some (9 / 10)) ∧
    (9 : ℚ) / 10 < 6 := by
  refine ⟨?_, ?_, by norm_num⟩ <;> norm_num [updKeyD, speedOf, Except.map]

/-- C8 amended: provided the edge's maxspeed data is well-formed —
positive speeds, and a two-valued maxspeed listing the free-flow value
first with the congested value no larger — increasing the stamped
congestion level of an edge (all other inputs equal) never decreases the
itime produced by the weighting pass. -/
theorem claim_C8_monotone (L : ℚ) (hL : 0 ≤ L) (msp : Option MaxSpeedVal)
    (hm : mspWellFormed msp) (c c' : ℕ) (hcc : c ≤ c') :
    ∃ t t',
      (updKeyD L ⟨L, msp, some c, none⟩).map IEdgeData.itime = .ok (some t) ∧
      (updKeyD L ⟨L, msp, some c', none⟩).map IEdgeData.itime = .ok (some t') ∧
      t ≤ t' := by
  have hnum : L * (c : ℚ) ≤ L * (c' : ℚ) :=
    mul_le_mul_of_nonneg_left (by exact_mod_cast hcc) hL
  have hnum' : (0 : ℚ) ≤ L * (c' : ℚ) :=
    mul_nonneg hL (Nat.cast_nonneg c')
  cases msp with
  | none =>
    refine ⟨L * c / 30, L * c' / 30, ?_, ?_, ?_⟩
    · norm_num [updKeyD, speedOf, Except.map]
    · norm_num [updKeyD, speedOf, Except.map]
    · exact div_le_div₀ hnum' hnum (by norm_num) le_rfl
  | some m =>
    cases m with
    | one v =>
      have hv : (0 : ℚ) < v := hm
      refine ⟨L * c / v, L * c' / v, ?_, ?_, ?_⟩
      · simp [updKeyD, speedOf, Except.map, hv.ne']
      · simp [updKeyD, speedOf, Except.map, hv.ne']
      · exact div_le_div₀ hnum' hnum hv le_rfl
    | two a b =>
      obtain ⟨hb, hba⟩ := hm
      have ha : (0 : ℚ) < a := lt_of_lt_of_le hb hba
      by_cases h2 : c ≤ 2
      · by_cases h2' : c' ≤ 2
        · refine ⟨L * c / a, L * c' / a, ?_, ?_, ?_⟩
          · simp [updKeyD, speedOf, Except.map, h2, ha.ne']
          · simp [updKeyD, speedOf, Except.map, h2', ha.ne']
          · exact div_le_div₀ hnum' hnum ha le_rfl
        · refine ⟨L * c / a, L * c' / b, ?_, ?_, ?_⟩
          · simp [updKeyD, speedOf, Except.map, h2, ha.ne']
          · simp [updKeyD, speedOf, Except.map, h2', hb.ne']
          · exact div_le_div₀ hnum' hnum hb hba
      · have h2' : ¬ c' ≤ 2 := fun hh => h2 (le_trans hcc hh)
        refine ⟨L * c / b, L * c' / b, ?_, ?_, ?_⟩
        · simp [updKeyD, speedOf, Except.map, h2, hb.ne']
        · simp [updKeyD, speedOf, Except.map, h2', hb.ne']
        · exact div_le_div₀ hnum' hnum hb le_rfl

/-- Witness for the amended C8 at length 30, maxspeed [50, 20], and
congestion levels 2 and 3. -/
theorem claim_C8_monotone_witness :
    ∃ t t',
      (updKeyD 30 ⟨30, some (.two 50 20), some 2, none⟩).map IEdgeData.itime =
        .ok (some t) ∧
      (updKeyD 30 ⟨30, some (.two 50 20), some 3, none⟩).map IEdgeData.itime =
        .ok (some t') ∧
      t ≤ t' :=
  claim_C8_monotone 30 (by norm_num) (some (.two 50 20))
    (by constructor <;> norm_num) 2 3 (by norm_num)

/-- C1: the stamping pass does NOT assign the reconciled congestion level
to every edge along the matched shortest path.  Setup A: the snapped path
0 → 1 → 2 exists and the write loop happens to find the integer-indexed
adjacency graph[0][1], yet only the first edge of the path receives the
level (the loop steps the path positions by 2); the second edge stays
unstamped.  Setup B: the same path on nodes 10 → 11 → 12 exists, but
graph[0] raises a KeyError (node 0 does not exist), the bare except
swallows it and NO edge of the path is stamped. -/
theorem claim_C1_partial_stamping :
    (phase1 c1Nearest c1Spath c1Graph c1Highways c1Congestions).map
        (fun g => g.edges.map (fun e => e.data.congestion)) =
      .ok [some 4, none] ∧
    (phase1 c1NearestB c1SpathB c1GraphB c1Highways c1Congestions).map
        (fun g => g.edges.map (fun e => e.data.congestion)) =
      .ok [none, none] ∧
    c1Spath 0 2 = some [0, 1, 2] ∧
    c1SpathB 10 12 = some [10, 11, 12] ∧
    get_congestion ⟨7, "2021-05-18", 2, 4⟩ = 4 := by
  decide

/-- C5: an edge whose maxspeed resolves to 0 makes build_igraph raise
ZeroDivisionError during the weighting pass (the claimed
infinite-cost/impassable treatment does not exist in the code). -/
theorem claim_C5_division_fault :
    build_igraph nearestNone spathNone zeroSpeedGraph [] [] = .error () := by
  decide

/-- C6: route queries do not trigger rebuilds.  A /go query 6 minutes
after the build (threshold 5) leaves the bot state — including the
published igraph and the build clock — unchanged, because the staleness
block of bot.py runs once at module load and the go handler has no
staleness logic.  The helper igo.update_graph does compare now - start
against the 5-minute threshold (no rebuild at exactly 5; rebuild of the
base graph when above), but returns only the graph and never resets the
caller's clock. -/
theorem claim_C6_stale_query_no_rebuild :
    (goHandlerState ⟨0, c6Graph⟩ 6 = ⟨0, c6Graph⟩ ∧ (6 : ℚ) - 0 > 5) ∧
    update_graph nearestNone spathNone 0 5 emptyGraph c6Graph [] [] = .ok emptyGraph ∧
    update_graph nearestNone spathNone 0 6 emptyGraph c6Graph [] [] =
      build_igraph nearestNone spathNone c6Graph [] [] ∧
    build_igraph nearestNone spathNone c6Graph [] [] ≠ .ok emptyGraph := by
  refine ⟨⟨rfl, by norm_num⟩, ?_, ?_, ?_⟩
  · norm_num [update_graph]
  · norm_num [update_graph]
  · decide

end IGo
